import Mathlib

/-!
# Verification of the yodk NOLOL→YOLOL conversion pipeline core

Shallow embedding of the conversion pipeline of the yodk repository:

* the greedy line packer (`mergeStatementElements` in src/pkg/nolol/converter.go),
* the per-line character budget (`maxLineLength`),
* the final line-count validation and error-return discipline of `Convert`,
* the length estimator (`getLengthOfLine`),
* the index-based visitor splice loops (`ExtProgramm.Accept`,
  `ExecutableLine.Accept` and `patchExtLines` in src/cmd/debug.go),
* the loop-context stack bookkeeping of `convertNodes`.

Statements of the merge pass are opaque to the packer: it only concatenates
them and measures candidate lines through the length estimator.  The
embedding is therefore parametric in the statement type and in the length
function, exactly as the Go code is parametric in the printer hidden behind
`c.getLengthOfLine`.
-/

set_option linter.unusedVariables false

namespace Yodk

/-! ## Data model: statement lines (nast.StatementLine)

A statement line carries an optional label (empty string = no label), the
ordered statements, a source-position token, and the two merge-boundary
markers.  The `position` field stands for the source span of the line; the
Go methods Start()/End() both derive from it. -/

structure StatementLine (σ : Type) where
  label : String
  statements : List σ
  position : Nat
  hasEOL : Bool
  hasBOL : Bool
deriving DecidableEq

/-- A structural (user-facing) compile error of the merge pass: message plus
the source span of the offending line (parser.Error in the Go code). -/
structure MergeError where
  message : String
  position : Nat
deriving DecidableEq

/-- src/pkg/nolol/converter.go lines 194-199: the per-line character budget,
70 normally, reduced by 4 when time-tracking is active. -/
def maxLineLength (usesTimeTracking : Bool) : Nat :=
  if !usesTimeTracking then 70 else 70 - 4

/-- The message of the single-line-over-budget error
(converter.go line 348). -/
def tooLongMessage : String :=
  "The line is too long (>70 characters) to be converted to yolol, even after optimization."

/-- Inner loop of `mergeStatementElements` (converter.go lines 343-376):
the accumulator line `current` repeatedly tries to absorb the next line.
The Go loop walks an index `i` with guard `i+1 < len(lines)`; here `rest`
is the list of lines after position `i`, and the function returns the
extended accumulator together with the lines that remain unabsorbed.

* If `current` alone is over budget (only checkable when a next line
  exists, exactly as in the source), a structural error carrying
  `current`'s span is returned.
* A next line with its own label or with the HasBOL marker is never
  absorbed.
* A speculative append that goes over budget is rolled back: the
  accumulator keeps its previous statement list and the line ends.
* Absorbing a line with the HasEOL marker stops the loop. -/
def mergeInner {σ : Type} (maxlen : Nat) (L : List σ → Nat)
    (current : StatementLine σ) :
    List (StatementLine σ) → Except MergeError (StatementLine σ × List (StatementLine σ))
  | [] => .ok (current, [])
  | nextline :: rest =>
    let currlen := L current.statements
    if currlen > maxlen then
      .error ⟨tooLongMessage, current.position⟩
    else if nextline.label = "" ∧ nextline.hasBOL = false then
      let prev := current.statements
      let merged := prev ++ nextline.statements
      let newlen := L merged
      if newlen > maxlen then
        -- the newly created line is longer than allowed: roll back
        .ok (current, nextline :: rest)
      else if nextline.hasEOL then
        .ok ({ current with statements := merged }, rest)
      else
        mergeInner maxlen L { current with statements := merged } rest
    else
      .ok (current, nextline :: rest)

/-- The accumulator that `mergeStatementElements` builds for the line at the
current outer index (converter.go lines 326-334): label, position and the
HasEOL marker are copied, the statements are copied into a fresh list, and
HasBOL is not copied (it defaults to false). -/
def copyLine {σ : Type} (l : StatementLine σ) : StatementLine σ :=
  { label := l.label
    statements := l.statements
    position := l.position
    hasEOL := l.hasEOL
    hasBOL := false }

theorem mergeInner_rest_length {σ : Type} (maxlen : Nat) (L : List σ → Nat)
    (current : StatementLine σ) (lines : List (StatementLine σ))
    (c : StatementLine σ) (rest : List (StatementLine σ))
    (h : mergeInner maxlen L current lines = .ok (c, rest)) :
    rest.length ≤ lines.length := by
  induction lines generalizing current with
  | nil =>
    simp only [mergeInner] at h
    cases h
    exact Nat.le_refl _
  | cons nextline tail ih =>
    simp only [mergeInner] at h
    split at h
    · exact absurd h (by simp)
    · split at h
      · split at h
        · cases h
          exact Nat.le_refl _
        · split at h
          · cases h
            exact Nat.le_succ_of_le (Nat.le_refl _)
          · exact Nat.le_succ_of_le (ih _ h)
      · cases h
        exact Nat.le_refl _

/-- Outer loop of `mergeStatementElements` (converter.go lines 321-380):
walk the program front to back; each input line starts a fresh accumulator
(a copy without the HasBOL marker); a line carrying HasEOL is closed
immediately and absorbs nothing; otherwise the inner loop extends the
accumulator as far as the budget and the boundary markers allow. -/
def mergeOuter {σ : Type} (maxlen : Nat) (L : List σ → Nat) :
    List (StatementLine σ) → Except MergeError (List (StatementLine σ))
  | [] => .ok []
  | l :: rest =>
    let current := copyLine l
    if current.hasEOL then
      -- no lines may be appended to a line having EOL
      match mergeOuter maxlen L rest with
      | .error e => .error e
      | .ok out => .ok (current :: out)
    else
      match h : mergeInner maxlen L current rest with
      | .error e => .error e
      | .ok (c, rest') =>
        match mergeOuter maxlen L rest' with
        | .error e => .error e
        | .ok out => .ok (c :: out)
termination_by lines => lines.length
decreasing_by
· simp only [List.length_cons]
  exact Nat.lt_succ_self _
· simp only [List.length_cons]
  exact Nat.lt_succ_of_le (mergeInner_rest_length _ _ _ _ _ _ h)

/-- src/pkg/nolol/converter.go lines 320-380: merge consecutive statement
lines into as few physical lines as possible.  The budget is
`maxLineLength usesTimeTracking`; `L` is the length estimator
(`c.getLengthOfLine`, which only reads the statement list of a line). -/
def mergeStatementElements {σ : Type} (usesTimeTracking : Bool)
    (L : List σ → Nat) (lines : List (StatementLine σ)) :
    Except MergeError (List (StatementLine σ)) :=
  mergeOuter (maxLineLength usesTimeTracking) L lines

/-- Concatenation of the statement lists of a sequence of lines, in order. -/
def flatStatements {σ : Type} : List (StatementLine σ) → List σ
  | [] => []
  | l :: rest => l.statements ++ flatStatements rest

theorem flatStatements_append {σ : Type} (a b : List (StatementLine σ)) :
    flatStatements (a ++ b) = flatStatements a ++ flatStatements b := by
  induction a with
  | nil => rfl
  | cons l rest ih => simp [flatStatements, ih]

/-- The lines left unabsorbed by the inner loop are a suffix of the lines it
was offered. -/
theorem mergeInner_rest_suffix {σ : Type} (maxlen : Nat) (L : List σ → Nat)
    (current : StatementLine σ) (lines : List (StatementLine σ))
    (c : StatementLine σ) (rest : List (StatementLine σ))
    (h : mergeInner maxlen L current lines = .ok (c, rest)) :
    ∃ t, lines = t ++ rest := by
  induction lines generalizing current with
  | nil =>
    simp only [mergeInner] at h
    cases h
    exact ⟨[], rfl⟩
  | cons nextline tail ih =>
    simp only [mergeInner] at h
    split at h
    · exact absurd h (by simp)
    · split at h
      · split at h
        · cases h
          exact ⟨[], rfl⟩
        · split at h
          · cases h
            exact ⟨[nextline], rfl⟩
          · obtain ⟨t, ht⟩ := ih _ h
            exact ⟨nextline :: t, by simp [ht]⟩
      · cases h
        exact ⟨[], rfl⟩

/-- The inner loop only rearranges statements: the statements accumulated in
the returned line, followed by the statements of the unabsorbed rest, are
exactly the accumulator's statements followed by all offered lines'
statements, in order. -/
theorem mergeInner_flat {σ : Type} (maxlen : Nat) (L : List σ → Nat)
    (current : StatementLine σ) (lines : List (StatementLine σ))
    (c : StatementLine σ) (rest : List (StatementLine σ))
    (h : mergeInner maxlen L current lines = .ok (c, rest)) :
    c.statements ++ flatStatements rest
      = current.statements ++ flatStatements lines := by
  induction lines generalizing current with
  | nil =>
    simp only [mergeInner] at h
    cases h
    rfl
  | cons nextline tail ih =>
    simp only [mergeInner] at h
    split at h
    · exact absurd h (by simp)
    · split at h
      · split at h
        · cases h
          rfl
        · split at h
          · cases h
            simp [flatStatements]
          · have := ih _ h
            simpa [flatStatements] using this
      · cases h
        rfl

/-- The inner loop either absorbs nothing (returning the accumulator and the
offered lines untouched) or returns a line whose estimated length fits the
budget: every successful speculative append was measured against the budget
before it was kept. -/
theorem mergeInner_fits {σ : Type} (maxlen : Nat) (L : List σ → Nat)
    (current : StatementLine σ) (lines : List (StatementLine σ))
    (c : StatementLine σ) (rest : List (StatementLine σ))
    (h : mergeInner maxlen L current lines = .ok (c, rest)) :
    (c = current ∧ rest = lines) ∨ L c.statements ≤ maxlen := by
  induction lines generalizing current with
  | nil =>
    simp only [mergeInner] at h
    cases h
    exact Or.inl ⟨rfl, rfl⟩
  | cons nextline tail ih =>
    simp only [mergeInner] at h
    split at h
    · exact absurd h (by simp)
    · split at h
      · split at h
        · cases h
          exact Or.inl ⟨rfl, rfl⟩
        · next hfit =>
          split at h
          · cases h
            exact Or.inr (Nat.le_of_not_lt hfit)
          · rcases ih _ h with ⟨hc, _⟩ | hle
            · subst hc
              exact Or.inr (Nat.le_of_not_lt hfit)
            · exact Or.inr hle
      · cases h
        exact Or.inl ⟨rfl, rfl⟩

/-- Merging never loses, duplicates or reorders a statement: the
concatenated statements of the output lines equal the concatenated
statements of the input lines. -/
theorem mergeOuter_flat {σ : Type} (maxlen : Nat) (L : List σ → Nat)
    (lines : List (StatementLine σ)) :
    ∀ out, mergeOuter maxlen L lines = .ok out →
      flatStatements out = flatStatements lines := by
  induction lines using mergeOuter.induct maxlen L with
  | case1 =>
    intro out h
    simp only [mergeOuter] at h
    cases h
    rfl
  | case2 nextline rest current hEOL e herr ih =>
    intro out h
    simp only [mergeOuter] at h
    split at h
    · rw [herr] at h
      exact absurd h (by simp)
    · next hcond => exact absurd hEOL hcond
  | case3 nextline rest current hEOL out' hok ih =>
    intro out h
    simp only [mergeOuter] at h
    split at h
    · rw [hok] at h
      cases h
      simp [flatStatements, copyLine, ih _ hok]
    · next hcond => exact absurd hEOL hcond
  | case4 nextline rest current hEOL e herr =>
    intro out h
    simp only [mergeOuter] at h
    split at h
    · next hcond => exact absurd hcond hEOL
    · split at h
      · next e2 heq =>
        exact absurd h (by simp)
      · next c rest' heq =>
        rw [herr] at heq
        exact absurd heq (by simp)
  | case5 nextline rest current hEOL c rest' hinner e herr ih =>
    intro out h
    simp only [mergeOuter] at h
    split at h
    · next hcond => exact absurd hcond hEOL
    · split at h
      · next e2 heq =>
        rw [hinner] at heq
        exact absurd heq (by simp)
      · next c' rest'' heq =>
        rw [hinner] at heq
        simp only [Except.ok.injEq, Prod.mk.injEq] at heq
        obtain ⟨hc, hr⟩ := heq
        subst hc
        subst hr
        rw [herr] at h
        exact absurd h (by simp)
  | case6 nextline rest current hEOL c rest' hinner out' hok ih =>
    intro out h
    simp only [mergeOuter] at h
    split at h
    · next hcond => exact absurd hcond hEOL
    · split at h
      · next e2 heq =>
        rw [hinner] at heq
        exact absurd heq (by simp)
      · next c' rest'' heq =>
        rw [hinner] at heq
        simp only [Except.ok.injEq, Prod.mk.injEq] at heq
        obtain ⟨hc, hr⟩ := heq
        subst hc
        subst hr
        rw [hok] at h
        cases h
        have hflat := mergeInner_flat maxlen L (copyLine nextline) rest c rest' hinner
        have hrec := ih _ hok
        simp only [flatStatements]
        rw [hrec, hflat]
        rfl

/-- Every line of a successful merge either fits the budget or carries
exactly the statement list of one of the input lines (it absorbed
nothing). -/
theorem mergeOuter_fits {σ : Type} (maxlen : Nat) (L : List σ → Nat)
    (lines : List (StatementLine σ)) :
    ∀ out, mergeOuter maxlen L lines = .ok out →
      ∀ x ∈ out, L x.statements ≤ maxlen ∨
        ∃ l ∈ lines, x.statements = l.statements := by
  induction lines using mergeOuter.induct maxlen L with
  | case1 =>
    intro out h
    simp only [mergeOuter] at h
    cases h
    intro x hx
    exact absurd hx (by simp)
  | case2 nextline rest current hEOL e herr ih =>
    intro out h
    simp only [mergeOuter] at h
    split at h
    · rw [herr] at h
      exact absurd h (by simp)
    · next hcond => exact absurd hEOL hcond
  | case3 nextline rest current hEOL out' hok ih =>
    intro out h
    simp only [mergeOuter] at h
    split at h
    · rw [hok] at h
      cases h
      intro x hx
      rcases List.mem_cons.1 hx with hx | hx
      · subst hx
        exact Or.inr ⟨nextline, List.mem_cons_self _ _, rfl⟩
      · rcases ih _ hok x hx with hle | ⟨l, hl, hst⟩
        · exact Or.inl hle
        · exact Or.inr ⟨l, List.mem_cons_of_mem _ hl, hst⟩
    · next hcond => exact absurd hEOL hcond
  | case4 nextline rest current hEOL e herr =>
    intro out h
    simp only [mergeOuter] at h
    split at h
    · next hcond => exact absurd hcond hEOL
    · split at h
      · next e2 heq =>
        exact absurd h (by simp)
      · next c rest' heq =>
        rw [herr] at heq
        exact absurd heq (by simp)
  | case5 nextline rest current hEOL c rest' hinner e herr ih =>
    intro out h
    simp only [mergeOuter] at h
    split at h
    · next hcond => exact absurd hcond hEOL
    · split at h
      · next e2 heq =>
        rw [hinner] at heq
        exact absurd heq (by simp)
      · next c' rest'' heq =>
        rw [hinner] at heq
        simp only [Except.ok.injEq, Prod.mk.injEq] at heq
        obtain ⟨hc, hr⟩ := heq
        subst hc
        subst hr
        rw [herr] at h
        exact absurd h (by simp)
  | case6 nextline rest current hEOL c rest' hinner out' hok ih =>
    intro out h
    simp only [mergeOuter] at h
    split at h
    · next hcond => exact absurd hcond hEOL
    · split at h
      · next e2 heq =>
        rw [hinner] at heq
        exact absurd heq (by simp)
      · next c' rest'' heq =>
        rw [hinner] at heq
        simp only [Except.ok.injEq, Prod.mk.injEq] at heq
        obtain ⟨hc, hr⟩ := heq
        subst hc
        subst hr
        rw [hok] at h
        cases h
        intro x hx
        rcases List.mem_cons.1 hx with hx | hx
        · subst hx
          rcases mergeInner_fits maxlen L (copyLine nextline) rest x rest' hinner with
            ⟨hxc, _⟩ | hle
          · subst hxc
            exact Or.inr ⟨nextline, List.mem_cons_self _ _, rfl⟩
          · exact Or.inl hle
        · rcases ih _ hok x hx with hle | ⟨l, hl, hst⟩
          · exact Or.inl hle
          · obtain ⟨t, ht⟩ :=
              mergeInner_rest_suffix maxlen L (copyLine nextline) rest c rest' hinner
            refine Or.inr ⟨l, List.mem_cons_of_mem _ ?_, hst⟩
            rw [ht]
            exact List.mem_append_right t hl

/-! ## Concrete instances used by witnesses and counterexamples

Statements are represented by their character counts; the length of a line
is the sum of the counts of its statements. -/

/-- A concrete, monotone length estimator for witnesses: each statement is
measured by its own character count. -/
def sumLen : List Nat → Nat := List.sum

/-- C1: for programs with no wait-directives, no self-line-number references
and no break/continue misuse, merging is a pure repacking: the flattened
statement sequence of the output of `mergeStatementElements` equals the
flattened statement sequence of its input, in order.  (Proved for every
input on which the merge succeeds, with an arbitrary length estimator.) -/
theorem mergeStatementElements_flatten_eq {σ : Type} (usesTimeTracking : Bool)
    (L : List σ → Nat) (lines out : List (StatementLine σ))
    (h : mergeStatementElements usesTimeTracking L lines = .ok out) :
    flatStatements out = flatStatements lines :=
  mergeOuter_flat _ L lines out h

/-- Witness for C1: two unlabeled, unmarked 30- and 25-character lines merge
into one physical line carrying both statements in order. -/
theorem mergeStatementElements_flatten_eq_witness :
    mergeStatementElements false sumLen
        [⟨"", [30], 0, false, false⟩, ⟨"", [25], 1, false, false⟩]
      = .ok [⟨"", [30, 25], 0, false, false⟩] ∧
    flatStatements [(⟨"", [30, 25], 0, false, false⟩ : StatementLine Nat)]
      = flatStatements [⟨"", [30], 0, false, false⟩, ⟨"", [25], 1, false, false⟩] := by
  have hok : mergeStatementElements false sumLen
      [⟨"", [30], 0, false, false⟩, ⟨"", [25], 1, false, false⟩]
      = .ok [⟨"", [30, 25], 0, false, false⟩] := by
    simp [mergeStatementElements, mergeOuter, mergeInner, copyLine, maxLineLength, sumLen]
  exact ⟨hok, mergeStatementElements_flatten_eq false sumLen _ _ hok⟩

/-- Counterexample for C2: a single 71-character line that is the last line
of the program is emitted by the merge pass without error, although it
serializes above the 70-character budget — the over-budget check lives
inside the absorb loop and never runs when no further line follows. -/
theorem merge_line_over_budget_emitted :
    mergeStatementElements false sumLen [⟨"", [71], 0, false, false⟩]
      = .ok [⟨"", [71], 0, false, false⟩] ∧
    maxLineLength false < sumLen [71] := by
  constructor
  · simp [mergeStatementElements, mergeOuter, mergeInner, copyLine, maxLineLength, sumLen]
  · decide

/-- C2 (amended): the effective budget is exactly 70 without time-tracking
and exactly 66 with it; and every line produced by a successful merge
either serializes (via the length estimator) to at most that budget or
consists of exactly the statements of a single unmerged input line. -/
theorem merge_budget_and_fits :
    (maxLineLength false = 70 ∧ maxLineLength true = 66) ∧
    ∀ {σ : Type} (usesTimeTracking : Bool) (L : List σ → Nat)
      (lines out : List (StatementLine σ)),
      mergeStatementElements usesTimeTracking L lines = .ok out →
      ∀ x ∈ out, L x.statements ≤ maxLineLength usesTimeTracking ∨
        ∃ l ∈ lines, x.statements = l.statements := by
  refine ⟨⟨rfl, rfl⟩, ?_⟩
  intro σ tt L lines out h x hx
  exact mergeOuter_fits (maxLineLength tt) L lines out h x hx

/-- Witness for C2 (amended): on the two-line program that merges into one
45-character line, the produced line fits the 70-character budget. -/
theorem merge_budget_and_fits_witness :
    sumLen (StatementLine.statements (⟨"", [30, 25], 0, false, false⟩ : StatementLine Nat))
        ≤ maxLineLength false ∨
      ∃ l ∈ [(⟨"", [30], 0, false, false⟩ : StatementLine Nat), ⟨"", [25], 1, false, false⟩],
        StatementLine.statements (⟨"", [30, 25], 0, false, false⟩ : StatementLine Nat)
          = l.statements := by
  have hok : mergeStatementElements false sumLen
      [⟨"", [30], 0, false, false⟩, ⟨"", [25], 1, false, false⟩]
      = .ok [⟨"", [30, 25], 0, false, false⟩] := by
    simp [mergeStatementElements, mergeOuter, mergeInner, copyLine, maxLineLength, sumLen]
  exact merge_budget_and_fits.2 false sumLen _ _ hok _ (by simp)

/-- Counterexample for C4: an over-budget line in last position (71
characters, no markers) does not make the merge pass fail; it is returned
unchanged with no error, although the claim demands a structural error for
every over-budget line regardless of its position. -/
theorem merge_no_error_on_last_over_budget :
    mergeStatementElements false sumLen [⟨"", [71], 5, false, false⟩]
      = .ok [⟨"", [71], 5, false, false⟩] ∧
    maxLineLength false < sumLen [71] := by
  constructor
  · simp [mergeStatementElements, mergeOuter, mergeInner, copyLine, maxLineLength, sumLen]
  · decide

/-- The inner loop can only fail at its very first budget check: a kept
absorption is always measured within budget first, so an error means the
accumulator it started from was over budget, the error carries that
accumulator's span, and at least one line followed. -/
theorem mergeInner_error_elim {σ : Type} (maxlen : Nat) (L : List σ → Nat)
    (current : StatementLine σ) (lines : List (StatementLine σ)) (e : MergeError)
    (h : mergeInner maxlen L current lines = .error e) :
    e = ⟨tooLongMessage, current.position⟩ ∧
      maxlen < L current.statements ∧ lines ≠ [] := by
  induction lines generalizing current with
  | nil =>
    simp only [mergeInner] at h
    exact absurd h (by simp)
  | cons nextline tail ih =>
    simp only [mergeInner] at h
    split at h
    · next htop =>
      simp only [Except.error.injEq] at h
      exact ⟨h.symm, htop, by simp⟩
    · split at h
      · split at h
        · exact absurd h (by simp)
        · next hfit =>
          split at h
          · exact absurd h (by simp)
          · exact absurd (ih _ h).2.1 hfit
      · exact absurd h (by simp)

/-- An over-budget accumulator with at least one following line makes the
inner loop fail with the too-long error at the accumulator's span. -/
theorem mergeInner_error_intro {σ : Type} (maxlen : Nat) (L : List σ → Nat)
    (current x : StatementLine σ) (rest : List (StatementLine σ))
    (h : maxlen < L current.statements) :
    mergeInner maxlen L current (x :: rest)
      = .error ⟨tooLongMessage, current.position⟩ := by
  simp only [mergeInner]
  rw [if_pos h]

/-- Under a monotone length estimator (appending statements never shrinks
the measured length, as with the real printer-backed estimator), an
over-budget line can never be absorbed: the inner loop leaves it, and
everything after it, in the unconsumed rest. -/
theorem mergeInner_offender_preserved {σ : Type} (maxlen : Nat)
    (L : List σ → Nat) (hmono : ∀ a b : List σ, L b ≤ L (a ++ b))
    (current : StatementLine σ) (lines : List (StatementLine σ))
    (c : StatementLine σ) (rest' : List (StatementLine σ))
    (h : mergeInner maxlen L current lines = .ok (c, rest')) :
    ∀ (pre : List (StatementLine σ)) (l : StatementLine σ)
      (suf : List (StatementLine σ)),
      lines = pre ++ l :: suf → maxlen < L l.statements →
      ∃ pre2, rest' = pre2 ++ l :: suf := by
  induction lines generalizing current with
  | nil =>
    intro pre l suf hline _
    exact absurd hline (by simp)
  | cons nextline tail ih =>
    intro pre l suf hline hover
    simp only [mergeInner] at h
    split at h
    · exact absurd h (by simp)
    · split at h
      · split at h
        · simp only [Except.ok.injEq, Prod.mk.injEq] at h
          refine ⟨pre, ?_⟩
          rw [← h.2]
          exact hline
        · next hfit =>
          cases pre with
          | nil =>
            simp only [List.nil_append] at hline
            injection hline with h1 h2
            subst h1
            exact absurd (Nat.lt_of_lt_of_le hover (hmono current.statements _)) hfit
          | cons p pre2 =>
            simp only [List.cons_append] at hline
            injection hline with h1 h2
            split at h
            · simp only [Except.ok.injEq, Prod.mk.injEq] at h
              refine ⟨pre2, ?_⟩
              rw [← h.2]
              exact h2
            · exact ih _ h pre2 l suf h2 hover
      · simp only [Except.ok.injEq, Prod.mk.injEq] at h
        refine ⟨pre, ?_⟩
        rw [← h.2]
        exact hline

/-- Unfolding of the outer loop at a line carrying the must-end marker. -/
theorem mergeOuter_cons_eol {σ : Type} (maxlen : Nat) (L : List σ → Nat)
    (l : StatementLine σ) (rest : List (StatementLine σ))
    (hEOL : l.hasEOL = true) :
    mergeOuter maxlen L (l :: rest)
      = (mergeOuter maxlen L rest).map (fun out => copyLine l :: out) := by
  simp only [mergeOuter]
  split
  · cases mergeOuter maxlen L rest <;> simp [Except.map]
  · next hcond => exact absurd (show (copyLine l).hasEOL = true from hEOL) hcond

/-- Unfolding of the outer loop when the inner loop fails. -/
theorem mergeOuter_cons_inner_error {σ : Type} (maxlen : Nat) (L : List σ → Nat)
    (l : StatementLine σ) (rest : List (StatementLine σ)) (e : MergeError)
    (hEOL : l.hasEOL = false)
    (herr : mergeInner maxlen L (copyLine l) rest = .error e) :
    mergeOuter maxlen L (l :: rest) = .error e := by
  simp only [mergeOuter]
  split
  · next hcond =>
    have hl : l.hasEOL = true := hcond
    rw [hEOL] at hl
    exact absurd hl (by simp)
  · split
    · next e2 heq =>
      rw [herr] at heq
      simp only [Except.error.injEq] at heq
      rw [heq]
    · next c rest' heq =>
      rw [herr] at heq
      exact absurd heq (by simp)

/-- Unfolding of the outer loop when the inner loop succeeds. -/
theorem mergeOuter_cons_inner_ok {σ : Type} (maxlen : Nat) (L : List σ → Nat)
    (l : StatementLine σ) (rest : List (StatementLine σ)) (c : StatementLine σ)
    (rest' : List (StatementLine σ)) (hEOL : l.hasEOL = false)
    (hinner : mergeInner maxlen L (copyLine l) rest = .ok (c, rest')) :
    mergeOuter maxlen L (l :: rest)
      = (mergeOuter maxlen L rest').map (fun out => c :: out) := by
  simp only [mergeOuter]
  split
  · next hcond =>
    have hl : l.hasEOL = true := hcond
    rw [hEOL] at hl
    exact absurd hl (by simp)
  · split
    · next e2 heq =>
      rw [hinner] at heq
      exact absurd heq (by simp)
    · next c2 rest2 heq =>
      rw [hinner] at heq
      simp only [Except.ok.injEq, Prod.mk.injEq] at heq
      obtain ⟨hc, hr⟩ := heq
      subst hc
      subst hr
      cases mergeOuter maxlen L rest' <;> simp [Except.map]

/-- Under a monotone length estimator, an over-budget line that lacks the
must-end marker and is followed by another line forces the merge to fail,
and the error is the too-long error carrying the span of such an
over-budget line. -/
theorem mergeOuter_offender_error {σ : Type} (maxlen : Nat) (L : List σ → Nat)
    (hmono : ∀ a b : List σ, L b ≤ L (a ++ b)) (ls : List (StatementLine σ)) :
    ∀ (pre : List (StatementLine σ)) (l : StatementLine σ)
      (suf : List (StatementLine σ)),
      ls = pre ++ l :: suf → suf ≠ [] → l.hasEOL = false →
      maxlen < L l.statements →
      ∃ (l2 : StatementLine σ) (pre2 suf2 : List (StatementLine σ)),
        ls = pre2 ++ l2 :: suf2 ∧ suf2 ≠ [] ∧ l2.hasEOL = false ∧
        maxlen < L l2.statements ∧
        mergeOuter maxlen L ls = .error ⟨tooLongMessage, l2.position⟩ := by
  induction ls using mergeOuter.induct maxlen L with
  | case1 =>
    intro pre l suf hline _ _ _
    exact absurd hline (by simp)
  | case2 nextline rest current hEOL e herr ih =>
    intro pre l suf hline hsuf hlEOL hover
    have hEOL' : nextline.hasEOL = true := hEOL
    cases pre with
    | nil =>
      simp only [List.nil_append] at hline
      injection hline with h1 h2
      subst h1
      rw [hlEOL] at hEOL'
      exact absurd hEOL' (by simp)
    | cons p pre2 =>
      simp only [List.cons_append] at hline
      injection hline with h1 h2
      subst h1
      obtain ⟨l2, pre3, suf3, hrest, hsuf3, hl2EOL, hl2over, herr2⟩ :=
        ih pre2 l suf h2 hsuf hlEOL hover
      rw [herr] at herr2
      simp only [Except.error.injEq] at herr2
      refine ⟨l2, nextline :: pre3, suf3, by simp [hrest], hsuf3, hl2EOL, hl2over, ?_⟩
      rw [mergeOuter_cons_eol maxlen L nextline rest hEOL', herr, herr2]
      rfl
  | case3 nextline rest current hEOL out hok ih =>
    intro pre l suf hline hsuf hlEOL hover
    have hEOL' : nextline.hasEOL = true := hEOL
    cases pre with
    | nil =>
      simp only [List.nil_append] at hline
      injection hline with h1 h2
      subst h1
      rw [hlEOL] at hEOL'
      exact absurd hEOL' (by simp)
    | cons p pre2 =>
      simp only [List.cons_append] at hline
      injection hline with h1 h2
      subst h1
      obtain ⟨l2, pre3, suf3, hrest, hsuf3, hl2EOL, hl2over, herr2⟩ :=
        ih pre2 l suf h2 hsuf hlEOL hover
      rw [hok] at herr2
      exact absurd herr2 (by simp)
  | case4 nextline rest current hEOL e herr =>
    intro pre l suf hline hsuf hlEOL hover
    have hEOL' : nextline.hasEOL = false := by
      have := hEOL
      simp only [Bool.not_eq_true] at this
      exact this
    obtain ⟨he, hov, hne⟩ := mergeInner_error_elim maxlen L _ rest e herr
    refine ⟨nextline, [], rest, by simp, hne, hEOL', hov, ?_⟩
    rw [mergeOuter_cons_inner_error maxlen L nextline rest e hEOL' herr, he]
    rfl
  | case5 nextline rest current hEOL c rest' hinner e herr ih =>
    intro pre l suf hline hsuf hlEOL hover
    have hEOL' : nextline.hasEOL = false := by
      have := hEOL
      simp only [Bool.not_eq_true] at this
      exact this
    cases pre with
    | nil =>
      simp only [List.nil_append] at hline
      injection hline with h1 h2
      subst h1
      have hrest : rest ≠ [] := by
        rw [h2]
        exact hsuf
      obtain ⟨x, rs, hx⟩ := List.exists_cons_of_ne_nil hrest
      have hcontra := mergeInner_error_intro maxlen L (copyLine nextline) x rs
        (show maxlen < L (copyLine nextline).statements from hover)
      rw [hx] at hinner
      rw [hinner] at hcontra
      exact absurd hcontra (by simp)
    | cons p pre2 =>
      simp only [List.cons_append] at hline
      injection hline with h1 h2
      subst h1
      obtain ⟨pre3, hpre3⟩ := mergeInner_offender_preserved maxlen L hmono
        (copyLine nextline) rest c rest' hinner pre2 l suf h2 hover
      obtain ⟨l2, pre4, suf4, hrest', hsuf4, hl2EOL, hl2over, herr2⟩ :=
        ih pre3 l suf hpre3 hsuf hlEOL hover
      rw [herr] at herr2
      simp only [Except.error.injEq] at herr2
      obtain ⟨t, ht⟩ := mergeInner_rest_suffix maxlen L (copyLine nextline) rest c
        rest' hinner
      refine ⟨l2, nextline :: (t ++ pre4), suf4, ?_, hsuf4, hl2EOL, hl2over, ?_⟩
      · rw [ht, hrest']
        simp
      · rw [mergeOuter_cons_inner_ok maxlen L nextline rest c rest' hEOL' hinner,
          herr, herr2]
        rfl
  | case6 nextline rest current hEOL c rest' hinner out hok ih =>
    intro pre l suf hline hsuf hlEOL hover
    have hEOL' : nextline.hasEOL = false := by
      have := hEOL
      simp only [Bool.not_eq_true] at this
      exact this
    cases pre with
    | nil =>
      simp only [List.nil_append] at hline
      injection hline with h1 h2
      subst h1
      have hrest : rest ≠ [] := by
        rw [h2]
        exact hsuf
      obtain ⟨x, rs, hx⟩ := List.exists_cons_of_ne_nil hrest
      have hcontra := mergeInner_error_intro maxlen L (copyLine nextline) x rs
        (show maxlen < L (copyLine nextline).statements from hover)
      rw [hx] at hinner
      rw [hinner] at hcontra
      exact absurd hcontra (by simp)
    | cons p pre2 =>
      simp only [List.cons_append] at hline
      injection hline with h1 h2
      subst h1
      obtain ⟨pre3, hpre3⟩ := mergeInner_offender_preserved maxlen L hmono
        (copyLine nextline) rest c rest' hinner pre2 l suf h2 hover
      obtain ⟨l2, pre4, suf4, hrest', hsuf4, hl2EOL, hl2over, herr2⟩ :=
        ih pre3 l suf hpre3 hsuf hlEOL hover
      rw [hok] at herr2
      exact absurd herr2 (by simp)

/-- Decomposition of a list around one of its positions. -/
theorem list_eq_take_getElem_drop {α : Type} (l : List α) (i : Nat)
    (h : i < l.length) :
    l = l.take i ++ l[i] :: l.drop (i + 1) := by
  induction l generalizing i with
  | nil => exact absurd h (by simp)
  | cons x xs ih =>
    cases i with
    | zero => rfl
    | succ i =>
      simp only [List.take_succ_cons, List.getElem_cons_succ, List.drop_succ_cons,
        List.cons_append]
      exact congrArg (x :: ·) (ih i (by simpa using h))

/-- C4 (amended): for every monotone length estimator (appending statements
never shrinks the measured length, as with the real estimator): if any
single unmerged line alone serializes to more than the effective budget,
does not carry the must-end marker, and is followed by at least one
further line, then merging fails with the structural too-long error whose
source span is that of such an over-budget line (the first one the scan
reaches); the counterexample shows that over-budget lines in last position
or carrying the must-end marker escape the check. -/
theorem merge_error_on_over_budget_line {σ : Type} (usesTimeTracking : Bool)
    (L : List σ → Nat) (hmono : ∀ a b : List σ, L b ≤ L (a ++ b))
    (lines : List (StatementLine σ)) (i : Nat) (hi : i + 1 < lines.length)
    (hEOL : lines[i].hasEOL = false)
    (hover : maxLineLength usesTimeTracking < L lines[i].statements) :
    ∃ j, ∃ hj : j + 1 < lines.length,
      lines[j].hasEOL = false ∧
      maxLineLength usesTimeTracking < L lines[j].statements ∧
      mergeStatementElements usesTimeTracking L lines
        = .error ⟨tooLongMessage, lines[j].position⟩ := by
  have hii : i < lines.length := by omega
  have hsplit := list_eq_take_getElem_drop lines i hii
  have hsuf : lines.drop (i + 1) ≠ [] := by
    intro hnil
    have hlen := congrArg List.length hnil
    simp only [List.length_drop, List.length_nil] at hlen
    omega
  obtain ⟨l2, pre2, suf2, hls, hsuf2, hl2EOL, hl2over, herr⟩ :=
    mergeOuter_offender_error (maxLineLength usesTimeTracking) L hmono lines
      (lines.take i) lines[i] (lines.drop (i + 1)) hsplit hsuf hEOL hover
  have hlen2 : lines.length = pre2.length + suf2.length + 1 := by
    rw [hls]
    simp
    omega
  have hs2 : 0 < suf2.length := List.length_pos.mpr hsuf2
  have hj : pre2.length + 1 < lines.length := by omega
  have hget : lines[pre2.length] = l2 := by
    have hb : pre2.length < (pre2 ++ l2 :: suf2).length := by simp
    have hx : (pre2 ++ l2 :: suf2)[pre2.length] = l2 := by
      rw [List.getElem_append_right (Nat.le_refl _)]
      simp
    rw [← hx]
    congr 1
  refine ⟨pre2.length, hj, ?_, ?_, ?_⟩
  · rw [hget]
    exact hl2EOL
  · rw [hget]
    exact hl2over
  · rw [hget]
    exact herr

/-- Witness for C4 (amended): a 71-character first line followed by a plain
3-character line, under the monotone sum estimator, aborts the merge with
the too-long error at the span of an over-budget line (span 5). -/
theorem merge_error_on_over_budget_line_witness :
    ∃ j, ∃ hj : j + 1
        < ([⟨"", [71], 5, false, false⟩, ⟨"", [3], 6, false, false⟩]
            : List (StatementLine Nat)).length,
      ([⟨"", [71], 5, false, false⟩, ⟨"", [3], 6, false, false⟩]
          : List (StatementLine Nat))[j].hasEOL = false ∧
      maxLineLength false
        < sumLen (([⟨"", [71], 5, false, false⟩, ⟨"", [3], 6, false, false⟩]
            : List (StatementLine Nat))[j].statements) ∧
      mergeStatementElements false sumLen
          [⟨"", [71], 5, false, false⟩, ⟨"", [3], 6, false, false⟩]
        = .error ⟨tooLongMessage,
            (([⟨"", [71], 5, false, false⟩, ⟨"", [3], 6, false, false⟩]
                : List (StatementLine Nat))[j]).position⟩ :=
  merge_error_on_over_budget_line false sumLen
    (fun a b => by simp [sumLen, List.sum_append])
    [⟨"", [71], 5, false, false⟩, ⟨"", [3], 6, false, false⟩] 0
    (by decide) (by decide) (by decide)

/-- C5: the absorb step of the greedy packer obeys the boundary and
rollback rules:
1. a following line with its own label or the must-start marker is never
   absorbed — the accumulator and the remaining lines are untouched;
2. a speculative append that exceeds the budget is rolled back, leaving the
   accumulator's statement list exactly as before, and ends the line;
3. absorbing a line that carries the must-end marker stops further
   absorption into the same physical line immediately;
4. an accumulator line carrying the must-end marker absorbs nothing: it is
   closed as-is and the scan advances. -/
theorem merge_absorb_step_rules {σ : Type} (maxlen : Nat) (L : List σ → Nat) :
    (∀ (current next : StatementLine σ) (rest : List (StatementLine σ)),
      L current.statements ≤ maxlen →
      (next.label ≠ "" ∨ next.hasBOL = true) →
      mergeInner maxlen L current (next :: rest) = .ok (current, next :: rest)) ∧
    (∀ (current next : StatementLine σ) (rest : List (StatementLine σ)),
      L current.statements ≤ maxlen →
      next.label = "" → next.hasBOL = false →
      maxlen < L (current.statements ++ next.statements) →
      mergeInner maxlen L current (next :: rest) = .ok (current, next :: rest)) ∧
    (∀ (current next : StatementLine σ) (rest : List (StatementLine σ)),
      L current.statements ≤ maxlen →
      next.label = "" → next.hasBOL = false →
      L (current.statements ++ next.statements) ≤ maxlen →
      next.hasEOL = true →
      mergeInner maxlen L current (next :: rest)
        = .ok ({ current with statements := current.statements ++ next.statements }, rest)) ∧
    (∀ (l : StatementLine σ) (rest : List (StatementLine σ)),
      l.hasEOL = true →
      mergeOuter maxlen L (l :: rest)
        = (mergeOuter maxlen L rest).map (fun out => copyLine l :: out)) := by
  refine ⟨?_, ?_, ?_, ?_⟩
  · intro current next rest hbudget hboundary
    simp only [mergeInner]
    rw [if_neg (Nat.not_lt.2 hbudget), if_neg ?_]
    rintro ⟨hl, hb⟩
    rcases hboundary with hB | hB
    · exact hB hl
    · rw [hb] at hB
      exact Bool.false_ne_true hB
  · intro current next rest hbudget hl hb hover
    simp only [mergeInner]
    rw [if_neg (Nat.not_lt.2 hbudget), if_pos ⟨hl, hb⟩, if_pos hover]
  · intro current next rest hbudget hl hb hfit hEOL
    simp only [mergeInner]
    rw [if_neg (Nat.not_lt.2 hbudget), if_pos ⟨hl, hb⟩, if_neg (Nat.not_lt.2 hfit),
      if_pos hEOL]
  · intro l rest hEOL
    simp only [mergeOuter]
    rw [if_pos (show (copyLine l).hasEOL = true from hEOL)]
    cases mergeOuter maxlen L rest <;> simp [Except.map]

/-- Witness for C5: the four rules evaluated on concrete lines under the
70-character budget — a labeled follower is skipped, a 65-character
follower is rolled back (10 + 65 > 70), a must-end follower is absorbed and
stops the line, and a must-end accumulator closes immediately. -/
theorem merge_absorb_step_rules_witness :
    mergeInner 70 sumLen (⟨"", [10], 0, false, false⟩ : StatementLine Nat)
        [⟨"lbl", [5], 1, false, false⟩]
      = .ok (⟨"", [10], 0, false, false⟩, [⟨"lbl", [5], 1, false, false⟩]) ∧
    mergeInner 70 sumLen (⟨"", [10], 0, false, false⟩ : StatementLine Nat)
        [⟨"", [65], 1, false, false⟩]
      = .ok (⟨"", [10], 0, false, false⟩, [⟨"", [65], 1, false, false⟩]) ∧
    mergeInner 70 sumLen (⟨"", [10], 0, false, false⟩ : StatementLine Nat)
        [⟨"", [5], 1, true, false⟩, ⟨"", [2], 2, false, false⟩]
      = .ok (⟨"", [10, 5], 0, false, false⟩, [⟨"", [2], 2, false, false⟩]) ∧
    mergeOuter 70 sumLen [(⟨"", [7], 3, true, false⟩ : StatementLine Nat)]
      = (mergeOuter 70 sumLen ([] : List (StatementLine Nat))).map
          (fun out => copyLine ⟨"", [7], 3, true, false⟩ :: out) := by
  obtain ⟨h1, h2, h3, h4⟩ := @merge_absorb_step_rules Nat 70 sumLen
  refine ⟨h1 _ _ _ (by decide) (Or.inl (by decide)), ?_, ?_, h4 _ _ rfl⟩
  · exact h2 _ _ _ (by decide) rfl rfl (by decide)
  · exact h3 _ _ _ (by decide) rfl rfl (by decide) rfl

/-! ## The Convert pipeline (src/pkg/nolol/converter.go lines 94-192)

`Convert` sequences the lowering passes.  Every pass before the final
line-count validation is consumed as a black-box tree rewriter (they live
in their own functions or in the external optimizer packages); what the
embedding captures is Convert's control flow: each failing pass makes
Convert return a nil program with that pass's error, while the final
line-count check returns the fully compiled program together with a
structural error. -/

/-- A source position as used by parser.Error (ast.Position; the field
spelling follows the Go source). -/
structure ConvPosition where
  line : Nat
  coloumn : Nat
deriving DecidableEq

/-- A structural compile error with a source span (parser.Error). -/
structure ConvError where
  message : String
  startPosition : ConvPosition
  endPosition : ConvPosition
deriving DecidableEq

/-- The error Convert returns when the compiled program exceeds 20 lines
(converter.go lines 178-188). -/
def tooLargeError : ConvError :=
  { message := "Program is too large to be compiled into 20 lines of yolol."
    startPosition := ⟨1, 1⟩
    endPosition := ⟨30, 70⟩ }

/-- The passes Convert sequences, taken as black boxes: each either
rewrites the program or fails with an error.  `extractLines` is the loop at
converter.go lines 163-173 that copies the statement lines into the output
program; `removeFinalGotoIfNeeded` and `insertLineCounter` never fail in
the source and are total functions here. -/
structure ConvertPasses (Prog YLine : Type) where
  convertNodes : Prog → Except ConvError Prog
  addFinalGoto : Prog → Except ConvError Prog
  resolveGotoChains : Prog → Except ConvError Prog
  removeUnusedLabels : Prog → Except ConvError Prog
  mergeNololElements : Prog → Except ConvError Prog
  removeDuplicateGotos : Prog → Except ConvError Prog
  findJumpLabels : Prog → Except ConvError Prog
  replaceGotoLabels : Prog → Except ConvError Prog
  convertLineFuncCalls : Prog → Except ConvError Prog
  sexpOptimize : Prog → Except ConvError Prog
  usesTimeTracking : Prog → Bool
  insertLineCounter : Prog → Prog
  extractLines : Prog → List YLine
  removeFinalGotoIfNeeded : List YLine → List YLine

/-- src/pkg/nolol/converter.go lines 94-192: the conversion pipeline.  The
pair of return values models Go's `(*ast.Program, error)`: `none` is a nil
program pointer.  Every failing pass returns `(none, some err)`; after all
passes succeed the output program is built, the final goto is dropped if
redundant, and a program longer than 20 lines is returned together with
the structural too-large error. -/
def Convert {Prog YLine : Type} (P : ConvertPasses Prog YLine) (prog : Prog) :
    Option (List YLine) × Option ConvError :=
  let usesTT := P.usesTimeTracking prog
  match P.convertNodes prog with
  | .error err => (none, some err)
  | .ok p1 =>
  match P.addFinalGoto p1 with
  | .error err => (none, some err)
  | .ok p2 =>
  match P.resolveGotoChains p2 with
  | .error err => (none, some err)
  | .ok p3 =>
  match P.removeUnusedLabels p3 with
  | .error err => (none, some err)
  | .ok p4 =>
  match P.mergeNololElements p4 with
  | .error err => (none, some err)
  | .ok p5 =>
  match P.removeDuplicateGotos p5 with
  | .error err => (none, some err)
  | .ok p6 =>
  match P.findJumpLabels p6 with
  | .error err => (none, some err)
  | .ok p7 =>
  match P.replaceGotoLabels p7 with
  | .error err => (none, some err)
  | .ok p8 =>
  match P.convertLineFuncCalls p8 with
  | .error err => (none, some err)
  | .ok p9 =>
  match P.sexpOptimize p9 with
  | .error err => (none, some err)
  | .ok p10 =>
    let p11 := if usesTT then P.insertLineCounter p10 else p10
    let out := P.extractLines p11
    let out2 := P.removeFinalGotoIfNeeded out
    if out2.length > 20 then
      (some out2, some tooLargeError)
    else
      (some out2, none)

/-- Convert has exactly three kinds of outcomes: a pass failure (nil
program with the pass's error), a success with at most 20 lines, or the
line-ceiling failure returning the full program with the structural
too-large error. -/
theorem Convert_cases {Prog YLine : Type} (P : ConvertPasses Prog YLine)
    (prog : Prog) :
    (∃ e, Convert P prog = (none, some e)) ∨
    (∃ out, out.length ≤ 20 ∧ Convert P prog = (some out, none)) ∨
    (∃ out, 20 < out.length ∧ Convert P prog = (some out, some tooLargeError)) := by
  simp only [Convert]
  repeat' split
  all_goals
    first
    | exact Or.inl ⟨_, rfl⟩
    | (next h => exact Or.inr (Or.inr ⟨_, h, rfl⟩))
    | (next h => exact Or.inr (Or.inl ⟨_, by omega, rfl⟩))

/-- C3: if the fully compiled program has more than 20 physical lines,
Convert fails with the structural too-large error (a returned
parser.Error carrying a source span, not a crash); and every program
Convert returns without error has at most 20 lines. -/
theorem Convert_line_ceiling {Prog YLine : Type} (P : ConvertPasses Prog YLine)
    (prog : Prog) :
    ((Convert P prog).2 = none →
      ∃ out, (Convert P prog).1 = some out ∧ out.length ≤ 20) ∧
    (∀ out, (Convert P prog).1 = some out → 20 < out.length →
      (Convert P prog).2 = some tooLargeError) := by
  rcases Convert_cases P prog with ⟨e, hC⟩ | ⟨out, hle, hC⟩ | ⟨out, hgt, hC⟩ <;>
    rw [hC]
  · exact ⟨fun h => absurd h (by simp), fun out h => absurd h (by simp)⟩
  · refine ⟨fun _ => ⟨out, rfl, hle⟩, ?_⟩
    intro out' h hgt
    cases h
    omega
  · exact ⟨fun h => absurd h (by simp), fun out' h hgt => rfl⟩

/-- Witness helper: a pipeline over trivial programs whose extraction step
produces 21 lines. -/
def overflowPasses : ConvertPasses Unit Unit :=
  { convertNodes := fun p => .ok p
    addFinalGoto := fun p => .ok p
    resolveGotoChains := fun p => .ok p
    removeUnusedLabels := fun p => .ok p
    mergeNololElements := fun p => .ok p
    removeDuplicateGotos := fun p => .ok p
    findJumpLabels := fun p => .ok p
    replaceGotoLabels := fun p => .ok p
    convertLineFuncCalls := fun p => .ok p
    sexpOptimize := fun p => .ok p
    usesTimeTracking := fun _ => false
    insertLineCounter := fun p => p
    extractLines := fun _ => List.replicate 21 ()
    removeFinalGotoIfNeeded := fun out => out }

/-- Witness for C3: a pipeline that compiles to 21 lines makes Convert
return the structural too-large error. -/
theorem Convert_line_ceiling_witness :
    (Convert overflowPasses ()).2 = some tooLargeError :=
  (Convert_line_ceiling overflowPasses ()).2 (List.replicate 21 ()) rfl (by decide)

/-- C10: when Convert fails with a non-nil program, that failure is exactly
the line-ceiling failure: the returned error is the structural too-large
error and the returned program is the fully compiled, over-long output;
every other failure point returns a nil program with its error.  A caller
that reaches the too-large error still receives the complete output. -/
theorem Convert_error_return_discipline {Prog YLine : Type}
    (P : ConvertPasses Prog YLine) (prog : Prog) :
    (∀ out e, Convert P prog = (some out, some e) →
      e = tooLargeError ∧ 20 < out.length) ∧
    (∀ out, (Convert P prog).1 = some out → 20 < out.length →
      Convert P prog = (some out, some tooLargeError)) := by
  rcases Convert_cases P prog with ⟨e, hC⟩ | ⟨out, hle, hC⟩ | ⟨out, hgt, hC⟩ <;>
    rw [hC]
  · constructor
    · intro out e' h
      exact absurd h (by simp)
    · intro out h
      exact absurd h (by simp)
  · constructor
    · intro out' e' h
      exact absurd h (by simp)
    · intro out' h hgt
      cases h
      omega
  · constructor
    · intro out' e' h
      simp only [Prod.mk.injEq, Option.some.injEq] at h
      obtain ⟨h1, h2⟩ := h
      subst h1
      exact ⟨h2.symm, hgt⟩
    · intro out' h hgt'
      cases h
      rfl

/-- Witness for C10: the 21-line pipeline returns the complete output
together with the too-large error — both return values are non-nil. -/
theorem Convert_error_return_discipline_witness :
    Convert overflowPasses () = (some (List.replicate 21 ()), some tooLargeError) :=
  (Convert_error_return_discipline overflowPasses ()).2 (List.replicate 21 ()) rfl
    (by decide)

/-! ## The length estimator (src/pkg/nolol/converter.go lines 383-416)

`getLengthOfLine` renders a line through the yolol printer, intercepting
the two kinds of not-yet-resolved nodes: an unresolved jump
(`GoToLabelStatement`) prints as the fixed placeholder `gotoXX`
(`goto XX` in spaces mode) and an unresolved self-line-number reference
(a call of the built-in `line` function) prints as the fixed placeholder
`00`.  The line is rendered as a sequence of print items; everything the
external printer would produce for already-resolved syntax is a fixed text
item. -/

/-- One atom of the printed form of a line: resolved text, an unresolved
jump to a label, or an unresolved `line()` call. -/
inductive PItem where
  | text (s : String)
  | gotoLabel (label : String)
  | lineCall
deriving DecidableEq

/-- The printer extension of `getLengthOfLine` (converter.go lines
390-404): placeholders for the two unresolved node kinds, the external
printer's text for everything else. -/
def estimateItem (useSpaces : Bool) : PItem → String
  | .text s => s
  | .gotoLabel _ => if useSpaces then "goto XX" else "gotoXX"
  | .lineCall => "00"

/-- Modelled from the spec: the external yolol printer writes the rendered
items of a line in sequence into its buffer. -/
def printItems (f : PItem → String) : List PItem → String
  | [] => ""
  | it :: rest => f it ++ printItems f rest

/-- Models `strings.HasSuffix(generated, "\n")`. -/
def endsWithNewline (s : String) : Bool :=
  s.data.getLast? == some '\n'

/-- Modelled from the spec: the external printer terminates every rendered
line with a newline (which is why `getLengthOfLine` strips a trailing
newline before measuring). -/
def printLine (f : PItem → String) (line : List PItem) : String :=
  printItems f line ++ "\n"

/-- src/pkg/nolol/converter.go lines 383-416: the number of characters
needed to represent the given line as yolol code, measured on the
placeholder rendering, with a trailing newline not counted. -/
def getLengthOfLine (useSpaces : Bool) (line : List PItem) : Nat :=
  let generated := printLine (estimateItem useSpaces) line
  let linelen := generated.length
  if endsWithNewline generated then linelen - 1 else linelen

/-- Modelled from the spec: the final rendering of a line once label
resolution and line numbering are done — a jump prints `goto` followed by
the numeric target (with a separating space in spaces mode), a `line()`
call prints the containing line's number. -/
def resolveItem (useSpaces : Bool) (jumpTarget : String → Nat) (selfLine : Nat) :
    PItem → String
  | .text s => s
  | .gotoLabel lbl => (if useSpaces then "goto " else "goto") ++ Nat.repr (jumpTarget lbl)
  | .lineCall => Nat.repr selfLine

/-- Modelled from the spec: the true final length of a line, measured like
`getLengthOfLine` but on the resolved rendering. -/
def resolvedLengthOfLine (useSpaces : Bool) (jumpTarget : String → Nat)
    (selfLine : Nat) (line : List PItem) : Nat :=
  let generated := printLine (resolveItem useSpaces jumpTarget selfLine) line
  let linelen := generated.length
  if endsWithNewline generated then linelen - 1 else linelen

theorem endsWithNewline_append_newline (s : String) :
    endsWithNewline (s ++ "\n") = true := by
  simp only [endsWithNewline, String.data_append]
  rw [List.getLast?_concat]
  rfl

/-- Measuring through the newline-strip equals the bare rendering's
length. -/
theorem lineLength_eq_printItems_length (f : PItem → String) (line : List PItem) :
    (let generated := printLine f line
     let linelen := generated.length
     if endsWithNewline generated then linelen - 1 else linelen)
      = (printItems f line).length := by
  simp only [printLine, endsWithNewline_append_newline, if_pos, String.length_append]
  rfl

/-- The decimal representation of a line number in 1..20 takes at most two
characters. -/
theorem repr_length_le_two (n : Nat) (h : n ≤ 20) : (Nat.repr n).length ≤ 2 := by
  have hall : ∀ m, m < 21 → (Nat.repr m).length ≤ 2 := by decide
  exact hall n (by omega)

/-- The resolved rendering of any single item is never longer than its
placeholder rendering, as long as jump targets and line numbers stay in
1..20. -/
theorem resolveItem_length_le (useSpaces : Bool) (jumpTarget : String → Nat)
    (selfLine : Nat) (hT : ∀ lbl, 1 ≤ jumpTarget lbl ∧ jumpTarget lbl ≤ 20)
    (hself : 1 ≤ selfLine) (hself20 : selfLine ≤ 20) (it : PItem) :
    (resolveItem useSpaces jumpTarget selfLine it).length
      ≤ (estimateItem useSpaces it).length := by
  cases it with
  | text s => exact Nat.le_refl _
  | gotoLabel lbl =>
    have htarget := repr_length_le_two (jumpTarget lbl) (hT lbl).2
    cases useSpaces with
    | false =>
      simp only [resolveItem, estimateItem, if_neg, String.length_append]
      have h4 : ("goto" : String).length = 4 := rfl
      have h6 : ("gotoXX" : String).length = 6 := rfl
      simp only [Bool.false_eq_true, if_false, String.length_append, h4, h6]
      omega
    | true =>
      simp only [resolveItem, estimateItem, if_pos, String.length_append]
      have h5 : ("goto " : String).length = 5 := rfl
      have h7 : ("goto XX" : String).length = 7 := rfl
      simp only [if_true, String.length_append, h5, h7]
      omega
  | lineCall =>
    have := repr_length_le_two selfLine hself20
    simpa [resolveItem, estimateItem] using this

/-- Pointwise bounds on item renderings lift to the whole line. -/
theorem printItems_length_le (f g : PItem → String) (line : List PItem)
    (h : ∀ it ∈ line, (f it).length ≤ (g it).length) :
    (printItems f line).length ≤ (printItems g line).length := by
  induction line with
  | nil => exact Nat.le_refl _
  | cons it rest ih =>
    simp only [printItems, String.length_append]
    have h1 := h it (List.mem_cons_self _ _)
    have h2 := ih fun x hx => h x (List.mem_cons_of_mem _ hx)
    omega

/-- C6: the length estimator renders every unresolved jump target as a
fixed-width placeholder (six characters, seven in spaces mode) and every
unresolved self-line-number reference as a fixed two-character
placeholder, and for every line the estimated length is never smaller
than the length of the same line after the real jump targets and line
numbers (all in 1..20) are substituted, in both spacing modes. -/
theorem getLengthOfLine_overestimates :
    (∀ (useSpaces : Bool) (lbl : String),
      (estimateItem useSpaces (PItem.gotoLabel lbl)).length
        = if useSpaces then 7 else 6) ∧
    (∀ useSpaces : Bool, (estimateItem useSpaces PItem.lineCall).length = 2) ∧
    (∀ (useSpaces : Bool) (line : List PItem) (jumpTarget : String → Nat)
      (selfLine : Nat),
      (∀ lbl, 1 ≤ jumpTarget lbl ∧ jumpTarget lbl ≤ 20) →
      1 ≤ selfLine → selfLine ≤ 20 →
      resolvedLengthOfLine useSpaces jumpTarget selfLine line
        ≤ getLengthOfLine useSpaces line) := by
  refine ⟨?_, ?_, ?_⟩
  · intro u lbl
    cases u <;> rfl
  · intro u
    rfl
  · intro u line jumpTarget selfLine hT h1 h20
    rw [show resolvedLengthOfLine u jumpTarget selfLine line
        = (printItems (resolveItem u jumpTarget selfLine) line).length from
      lineLength_eq_printItems_length _ line]
    rw [show getLengthOfLine u line
        = (printItems (estimateItem u) line).length from
      lineLength_eq_printItems_length _ line]
    exact printItems_length_le _ _ line
      (fun it _ => resolveItem_length_le u jumpTarget selfLine hT h1 h20 it)

/-- Witness for C6: a concrete line holding resolved text, an unresolved
jump and an unresolved line() reference, with all targets resolved to 20
and the line number to 3, stays within its estimate. -/
theorem getLengthOfLine_overestimates_witness :
    resolvedLengthOfLine false (fun _ => 20) 3
        [PItem.text "x=1 ", PItem.gotoLabel "start", PItem.lineCall]
      ≤ getLengthOfLine false
        [PItem.text "x=1 ", PItem.gotoLabel "start", PItem.lineCall] :=
  getLengthOfLine_overestimates.2.2 false
    [PItem.text "x=1 ", PItem.gotoLabel "start", PItem.lineCall]
    (fun _ => 20) 3 (by intro lbl; refine ⟨?_, ?_⟩ <;> norm_num) (by decide) (by decide)

/-! ## The visitor splice loops (src/cmd/debug.go lines 394-438, 456-468)

`ExtProgramm.Accept` and `ExecutableLine.Accept` iterate an explicit index
over an owned list whose length may change mid-iteration: when visiting a
child yields a `NodeReplacement`, the list is patched in place
(`patchExtLines` / `parser.PatchStatements`) and the index advances by
`len(repl.Replacement) - 1` before the loop's own `i++`, so iteration
resumes right after the spliced-in nodes.  The outcome of visiting one
child (the `list[i].Accept(v)` call) is abstracted into a visitor
function; the `visited` accumulator instruments the loop with the exact
sequence of elements the visitor was invoked on. -/

/-- Outcome of visiting one child: no change, a (possibly empty) list of
replacement nodes, or an error aborting the traversal. -/
inductive VisitResult (α ε : Type) where
  | unchanged
  | replacement (nodes : List α)
  | error (e : ε)

/-- In-place patch of a child list: the replacement nodes take the place of
the element at `position` (debug.go lines 456-468, successful case; also
the contract of parser.PatchStatements). -/
def patchList {α : Type} (old : List α) (position : Nat) (repl : List α) : List α :=
  old.take position ++ repl ++ old.drop (position + 1)

/-- Splicing one element for `repl.length` elements changes the child count
by `repl.length - 1`. -/
theorem patchList_length {α : Type} (old : List α) (i : Nat) (repl : List α)
    (h : i < old.length) :
    (patchList old i repl).length + 1 = old.length + repl.length := by
  simp only [patchList, List.length_append, List.length_take, List.length_drop]
  omega

/-- The index loop shared by `ExtProgramm.Accept` (debug.go lines 399-413)
and `ExecutableLine.Accept` (lines 422-436): visit the element at `i`; on
a replacement, patch the list and resume at `i + len(repl)` (Go:
`i += len(repl.Replacement) - 1` followed by the loop's `i++`); on an
error, abort.  `visited` records each element the visitor is invoked on. -/
def acceptLoop {α ε : Type} (visit : α → VisitResult α ε) (lst : List α)
    (i : Nat) (visited : List α) : Except ε (List α × List α) :=
  if h : i < lst.length then
    match visit lst[i] with
    | .unchanged => acceptLoop visit lst (i + 1) (visited ++ [lst[i]])
    | .replacement repl =>
        acceptLoop visit (patchList lst i repl) (i + repl.length) (visited ++ [lst[i]])
    | .error e => .error e
  else
    .ok (lst, visited)
termination_by lst.length - i
decreasing_by
· omega
· have := patchList_length lst i repl h
  omega

/-- What one element becomes in the fully traversed list. -/
def expandNode {α ε : Type} (visit : α → VisitResult α ε) (x : α) : List α :=
  match visit x with
  | .unchanged => [x]
  | .replacement repl => repl
  | .error _ => [x]

/-- The fully traversed list: each original element replaced by what the
visitor turned it into. -/
def expandAll {α ε : Type} (visit : α → VisitResult α ε) : List α → List α
  | [] => []
  | x :: rest => expandNode visit x ++ expandAll visit rest

theorem drop_append_cons {α : Type} (done : List α) (x : α) (rest : List α) :
    (done ++ x :: rest).drop (done.length + 1) = rest := by
  induction done with
  | nil => rfl
  | cons d ds ih =>
    simp only [List.cons_append, List.length_cons, List.drop_succ_cons]
    exact ih

theorem acceptLoop_done {α ε : Type} (visit : α → VisitResult α ε) :
    ∀ (todo done visited out vis : List α),
      acceptLoop visit (done ++ todo) done.length visited = .ok (out, vis) →
      out = done ++ expandAll visit todo ∧ vis = visited ++ todo := by
  intro todo
  induction todo with
  | nil =>
    intro done visited out vis h
    rw [acceptLoop] at h
    rw [dif_neg (by simp)] at h
    simp only [Except.ok.injEq, Prod.mk.injEq] at h
    obtain ⟨h1, h2⟩ := h
    simp [← h1, ← h2, expandAll]
  | cons x rest ih =>
    intro done visited out vis h
    rw [acceptLoop] at h
    have hlen : done.length < (done ++ x :: rest).length := by
      simp
    rw [dif_pos hlen] at h
    have hget : (done ++ x :: rest)[done.length] = x := by
      rw [List.getElem_append_right (Nat.le_refl _)]
      simp
    rw [hget] at h
    split at h
    · next hv =>
      have hsplit : done ++ x :: rest = (done ++ [x]) ++ rest := by simp
      rw [hsplit, show done.length + 1 = (done ++ [x]).length by simp] at h
      obtain ⟨h1, h2⟩ := ih (done ++ [x]) (visited ++ [x]) out vis h
      constructor
      · simp [h1, expandAll, expandNode, hv]
      · simp [h2]
    · next repl hv =>
      have hpatch : patchList (done ++ x :: rest) done.length repl
          = (done ++ repl) ++ rest := by
        simp only [patchList, List.take_left, drop_append_cons]
      rw [hpatch, show done.length + repl.length = (done ++ repl).length by simp] at h
      obtain ⟨h1, h2⟩ := ih (done ++ repl) (visited ++ [x]) out vis h
      constructor
      · simp [h1, expandAll, expandNode, hv]
      · simp [h2]
    · next e hv =>
      exact absurd h (by simp)

/-- C7: when a visitor callback replaces one node with N nodes, the
traversal engine updates the parent's child list to hold the replacements
at that position (child count changes by N−1, third conjunct) and resumes
right after the spliced-in nodes: on a completed traversal the final child
list is the original list with each element replaced by its expansion, and
the visitor was invoked exactly once per original element, in order —
following siblings are each visited exactly once and replacement nodes are
never re-visited by the same loop. -/
theorem acceptLoop_splice_correct {α ε : Type} (visit : α → VisitResult α ε)
    (lst out visited : List α)
    (h : acceptLoop visit lst 0 [] = .ok (out, visited)) :
    out = expandAll visit lst ∧ visited = lst ∧
    (∀ (i : Nat) (repl : List α), i < lst.length →
      (patchList lst i repl).length + 1 = lst.length + repl.length) := by
  have := acceptLoop_done visit lst [] [] out visited h
  exact ⟨by simpa using this.1, by simpa using this.2,
    fun i repl hi => patchList_length lst i repl hi⟩

/-- A concrete visitor replacing the node 1 by the two nodes 10, 11. -/
def spliceVisitor : Nat → VisitResult Nat Unit :=
  fun x => if x = 1 then .replacement [10, 11] else .unchanged

/-- Witness for C7: on `[0, 1, 2]`, the loop splices `[10, 11]` in place of
`1`, still visits `2` exactly once, and does not visit the spliced-in
nodes. -/
theorem acceptLoop_splice_correct_witness :
    acceptLoop spliceVisitor [0, 1, 2] 0 [] = .ok ([0, 10, 11, 2], [0, 1, 2]) ∧
    [0, 10, 11, 2] = expandAll spliceVisitor [0, 1, 2] := by
  have hok : acceptLoop spliceVisitor [0, 1, 2] 0 [] = .ok ([0, 10, 11, 2], [0, 1, 2]) := by
    simp [acceptLoop, spliceVisitor, patchList]
  exact ⟨hok, (acceptLoop_splice_correct spliceVisitor _ _ _ hok).1⟩

/-! ## patchExtLines and the wrong-kind panic (src/cmd/debug.go 456-468)

`patchExtLines` rebuilds the line list around the replacement; every
replacement node must be an `ExtLine`, otherwise the function panics
(`panic("Could not patch slice. Wrong type.")`).  The panic — an
unrecoverable failure, not a returned error — is modelled as `none`;
lines are represented by an identifying payload. -/

/-- A replacement node handed to `patchExtLines`: either an `ExtLine`
(payload = the line) or a node of any other structural kind. -/
inductive ExtNode where
  | extline (line : Nat)
  | nonline (id : Nat)
deriving DecidableEq

/-- The conversion loop inside `patchExtLines`: each replacement node is
type-asserted to `ExtLine`; a node of any other kind panics (`none`). -/
def extLinesOf : List ExtNode → Option (List Nat)
  | [] => some []
  | ExtNode.extline l :: rest => (extLinesOf rest).map (fun ls => l :: ls)
  | ExtNode.nonline _ :: rest => none

/-- src/cmd/debug.go lines 456-468: splice the replacement nodes into the
line list at `position`; `none` models the panic on a replacement node of
the wrong structural kind. -/
def patchExtLines (old : List Nat) (position : Nat) (repl : List ExtNode) :
    Option (List Nat) :=
  match extLinesOf repl with
  | none => none
  | some mid => some (old.take position ++ mid ++ old.drop (position + 1))

theorem extLinesOf_eq_none_of_wrong_kind (repl : List ExtNode)
    (h : ∃ n ∈ repl, ∀ l, n ≠ ExtNode.extline l) :
    extLinesOf repl = none := by
  induction repl with
  | nil =>
    obtain ⟨n, hn, _⟩ := h
    exact absurd hn (by simp)
  | cons x rest ih =>
    obtain ⟨n, hn, hk⟩ := h
    rcases List.mem_cons.1 hn with hcase | hcase
    · subst hcase
      cases n with
      | extline l => exact absurd rfl (hk l)
      | nonline id => rfl
    · cases x with
      | extline l =>
        simp only [extLinesOf, ih ⟨n, hcase, hk⟩]
        rfl
      | nonline id => rfl

theorem extLinesOf_total_of_right_kind (repl : List ExtNode)
    (h : ∀ n ∈ repl, ∃ l, n = ExtNode.extline l) :
    ∃ mid, extLinesOf repl = some mid := by
  induction repl with
  | nil => exact ⟨[], rfl⟩
  | cons x rest ih =>
    obtain ⟨l, hl⟩ := h x (List.mem_cons_self _ _)
    subst hl
    obtain ⟨mid, hmid⟩ := ih fun n hn => h n (List.mem_cons_of_mem _ hn)
    exact ⟨l :: mid, by simp [extLinesOf, hmid]⟩

/-- C8: a replacement node of the wrong structural kind for a program-line
slot makes `patchExtLines` fail fatally (the Go panic, modelled `none`) —
for every such mismatched replacement, at every position; replacements
consisting only of lines are always spliced in without failure. -/
theorem patchExtLines_wrong_kind_fatal :
    (∀ (old : List Nat) (position : Nat) (repl : List ExtNode),
      (∃ n ∈ repl, ∀ l, n ≠ ExtNode.extline l) →
      patchExtLines old position repl = none) ∧
    (∀ (old : List Nat) (position : Nat) (repl : List ExtNode),
      (∀ n ∈ repl, ∃ l, n = ExtNode.extline l) →
      ∃ mid, patchExtLines old position repl = some mid) := by
  constructor
  · intro old position repl h
    simp [patchExtLines, extLinesOf_eq_none_of_wrong_kind repl h]
  · intro old position repl h
    obtain ⟨mid, hmid⟩ := extLinesOf_total_of_right_kind repl h
    refine ⟨old.take position ++ mid ++ old.drop (position + 1), ?_⟩
    simp only [patchExtLines, hmid]

/-- Witness for C8: replacing line 1 of `[1, 2, 3]` by a node that is not a
line panics. -/
theorem patchExtLines_wrong_kind_fatal_witness :
    patchExtLines [1, 2, 3] 1 [ExtNode.nonline 0] = none :=
  patchExtLines_wrong_kind_fatal.1 [1, 2, 3] 1 [ExtNode.nonline 0]
    ⟨ExtNode.nonline 0, by simp, fun l h => by cases h⟩

/-! ## The loop-context stack (src/pkg/nolol/converter.go lines 239-247)

During `convertNodes`, a while loop's pre-visit increments `loopcounter`
and pushes the fresh id onto `loopLevel`; its post-visit runs the loop
conversion and then pops the last element.  Break and continue statements
resolve against the innermost (last) entry.  The traversal order (pre,
children, post) follows the visitor contract; break/continue resolution
reads the top of the stack (`convertBreakStatement` /
`convertContinueStatement` are outside the given sources and are modelled
from the spec).

The state machine is instrumented: it returns, besides the final state,
the `loopLevel` snapshot after every callback and, for every
break/continue, the stack entry it resolved against (`none` = empty stack,
the "break outside loop" structural error). -/

/-- The extended-language constructs relevant to the loop stack: while
loops (with their body), break, continue, and any other statement. -/
inductive NololNode where
  | whileLoop (body : List NololNode)
  | breakStmt
  | continueStmt
  | plainStmt

/-- The converter state touched by loop handling: the loop-id counter and
the stack of active loop ids (innermost last). -/
structure LoopConvState where
  loopcounter : Nat
  loopLevel : List Nat
deriving DecidableEq

/-- Pre-visit of a while loop (converter.go lines 240-242):
`c.loopcounter++` followed by `c.loopLevel = append(c.loopLevel,
c.loopcounter)`. -/
def pushLoop (s : LoopConvState) : LoopConvState :=
  { loopcounter := s.loopcounter + 1
    loopLevel := s.loopLevel ++ [s.loopcounter + 1] }

mutual

/-- Run the `convertNodes` callback over one node, depth first.  Returns
the final state, the `loopLevel` snapshots after each callback invocation
(after pre-visit, after each event in the children, after post-visit; one
snapshot for leaf statements), and the resolution of every break/continue
encountered (modelled from the spec: resolved against the top stack
entry). -/
def convElem (s : LoopConvState) :
    NololNode → LoopConvState × List (List Nat) × List (Option Nat)
  | .whileLoop body =>
    let s1 := pushLoop s
    let r := convList s1 body
    let s3 : LoopConvState := { r.1 with loopLevel := r.1.loopLevel.dropLast }
    (s3, s1.loopLevel :: (r.2.1 ++ [s3.loopLevel]), r.2.2)
  | .breakStmt => (s, [s.loopLevel], [s.loopLevel.getLast?])
  | .continueStmt => (s, [s.loopLevel], [s.loopLevel.getLast?])
  | .plainStmt => (s, [s.loopLevel], [])

/-- Run the `convertNodes` callback over a list of sibling nodes in source
order, threading the state. -/
def convList (s : LoopConvState) :
    List NololNode → LoopConvState × List (List Nat) × List (Option Nat)
  | [] => (s, [], [])
  | e :: rest =>
    let r1 := convElem s e
    let r2 := convList r1.1 rest
    (r2.1, r1.2.1 ++ r2.2.1, r1.2.2 ++ r2.2.2)

end

mutual

/-- The loop-nesting depth at each callback of a node, in traversal order:
inside a while loop the depth is one higher than outside. -/
def specDepthsElem (d : Nat) : NololNode → List Nat
  | .whileLoop body => (d + 1) :: (specDepthsList (d + 1) body ++ [d])
  | .breakStmt => [d]
  | .continueStmt => [d]
  | .plainStmt => [d]

/-- The loop-nesting depth at each callback over a list of siblings. -/
def specDepthsList (d : Nat) : List NololNode → List Nat
  | [] => []
  | e :: rest => specDepthsElem d e ++ specDepthsList d rest

end

mutual

/-- Processing any node restores the loop stack (each push is popped by
the matching post-visit) and never decreases the loop counter. -/
theorem convElem_state (s : LoopConvState) (e : NololNode) :
    (convElem s e).1.loopLevel = s.loopLevel ∧
      s.loopcounter ≤ (convElem s e).1.loopcounter := by
  cases e with
  | whileLoop body =>
    have hb := convList_state (pushLoop s) body
    simp only [convElem]
    constructor
    · rw [hb.1]
      simp [pushLoop]
    · exact Nat.le_trans (Nat.le_succ _) hb.2
  | breakStmt => exact ⟨rfl, Nat.le_refl _⟩
  | continueStmt => exact ⟨rfl, Nat.le_refl _⟩
  | plainStmt => exact ⟨rfl, Nat.le_refl _⟩

/-- Processing a list of siblings restores the loop stack and never
decreases the loop counter. -/
theorem convList_state (s : LoopConvState) (l : List NololNode) :
    (convList s l).1.loopLevel = s.loopLevel ∧
      s.loopcounter ≤ (convList s l).1.loopcounter := by
  cases l with
  | nil => exact ⟨rfl, Nat.le_refl _⟩
  | cons e rest =>
    have h1 := convElem_state s e
    have h2 := convList_state (convElem s e).1 rest
    simp only [convList]
    exact ⟨h2.1.trans h1.1, Nat.le_trans h1.2 h2.2⟩

end

mutual

/-- The stack depth after every callback equals the syntactic loop-nesting
depth at that callback (relative to the depth at entry). -/
theorem convElem_depths (s : LoopConvState) (e : NololNode) :
    ((convElem s e).2.1).map List.length = specDepthsElem s.loopLevel.length e := by
  cases e with
  | whileLoop body =>
    have hb := convList_depths (pushLoop s) body
    have hst := (convList_state (pushLoop s) body).1
    simp only [pushLoop] at hb hst
    simp only [List.length_append, List.length_cons, List.length_nil, Nat.zero_add] at hb
    simp only [convElem, specDepthsElem, pushLoop, List.map_cons, List.map_append,
      List.map]
    rw [hst]
    simp [List.dropLast_concat, hb]
  | breakStmt => simp [convElem, specDepthsElem]
  | continueStmt => simp [convElem, specDepthsElem]
  | plainStmt => simp [convElem, specDepthsElem]

/-- The stack depth after every callback over a list of siblings equals
the syntactic nesting depth there. -/
theorem convList_depths (s : LoopConvState) (l : List NololNode) :
    ((convList s l).2.1).map List.length = specDepthsList s.loopLevel.length l := by
  cases l with
  | nil => simp [convList, specDepthsList]
  | cons e rest =>
    have h1 := convElem_depths s e
    have hst := convElem_state s e
    have h2 := convList_depths (convElem s e).1 rest
    simp only [convList, specDepthsList, List.map_append]
    rw [h1, h2, hst.1]

end

/-- Splitting a sibling list splits the traversal: the second half starts
from the state the first half ends in, and the traces concatenate. -/
theorem convList_append (s : LoopConvState) (a b : List NololNode) :
    convList s (a ++ b)
      = ((convList (convList s a).1 b).1,
         (convList s a).2.1 ++ (convList (convList s a).1 b).2.1,
         (convList s a).2.2 ++ (convList (convList s a).1 b).2.2) := by
  induction a generalizing s with
  | nil => simp [convList]
  | cons e rest ih =>
    simp [convList, ih (convElem s e).1, List.append_assoc]

/-- C9: the loop-context stack obeys the push/pop discipline: a fresh id
(`loopcounter + 1`) is pushed at pre-visit of each while loop and popped
exactly when that loop's post-order conversion completes, so processing
any node restores the stack and the counter never decreases (first
conjunct); starting outside any loop the stack ends empty and its depth
after every callback equals the syntactic loop-nesting depth at that
point (second conjunct); and a break or continue directly inside a while
loop's body resolves against the top entry, which is exactly the id the
enclosing while loop pushed (third conjunct). -/
theorem loopLevel_stack_discipline :
    (∀ (s : LoopConvState) (e : NololNode),
      (convElem s e).1.loopLevel = s.loopLevel ∧
        s.loopcounter ≤ (convElem s e).1.loopcounter) ∧
    (∀ prog : List NololNode,
      (convList ⟨0, []⟩ prog).1.loopLevel = [] ∧
      ((convList ⟨0, []⟩ prog).2.1).map List.length = specDepthsList 0 prog) ∧
    (∀ (s : LoopConvState) (b1 b2 : List NololNode) (stmt : NololNode),
      stmt = NololNode.breakStmt ∨ stmt = NololNode.continueStmt →
      (convElem s (NololNode.whileLoop (b1 ++ stmt :: b2))).2.2
        = (convList (pushLoop s) b1).2.2
            ++ some (s.loopcounter + 1)
            :: (convList (convList (pushLoop s) b1).1 b2).2.2) := by
  refine ⟨convElem_state, ?_, ?_⟩
  · intro prog
    refine ⟨(convList_state ⟨0, []⟩ prog).1, ?_⟩
    have := convList_depths ⟨0, []⟩ prog
    simpa using this
  · intro s b1 b2 stmt hstmt
    have hs2 : (convList (pushLoop s) b1).1.loopLevel
        = s.loopLevel ++ [s.loopcounter + 1] := by
      rw [(convList_state (pushLoop s) b1).1]
      rfl
    simp only [convElem]
    rw [convList_append (pushLoop s) b1 (stmt :: b2)]
    rcases hstmt with h | h <;> subst h <;>
      simp [convList, convElem, hs2, List.getLast?_concat]

/-- Witness for C9: a while loop whose body is one plain statement followed
by a break — the break resolves to the loop's fresh id 1. -/
theorem loopLevel_stack_discipline_witness :
    (convElem ⟨0, []⟩
        (NololNode.whileLoop ([NololNode.plainStmt] ++ NololNode.breakStmt :: []))).2.2
      = (convList (pushLoop ⟨0, []⟩) [NololNode.plainStmt]).2.2
          ++ some 1
          :: (convList (convList (pushLoop ⟨0, []⟩) [NololNode.plainStmt]).1 []).2.2 :=
  loopLevel_stack_discipline.2.2 ⟨0, []⟩ [NololNode.plainStmt] [] NololNode.breakStmt
    (Or.inl rfl)

end Yodk
